import Mathlib

/-!
Verification of the arbitrage-chain detection core of `src/jito.py`.

The per-transaction core (`construct_balance_changes` and the body of `main`,
lines 180-252) is embedded shallowly:

* Python dicts (which iterate in insertion order) are modelled as association
  lists with update-in-place / append-on-new semantics (`alistUpdate`), and
  `defaultdict` access is modelled by updating with a default for a missing key.
* Token amounts are modelled as exact rationals.  The Python code divides the
  accumulated integer amount by `10 ** decimals` using float division; the
  rational model is the exact-arithmetic reading of the same expression.
* `rawAmount` is `Option Int`; `none` models a `null`/empty amount string,
  which the code reads as `0` via `int(... or "0")`.
* The `while`-loops of the chain builder are modelled with an explicit fuel
  parameter; `buildChains` runs with fuel equal to the number of edges, which
  is shown to be sufficient (the termination claim).
-/

namespace Jito

abbrev Owner := String
abbrev Mint := String

/-- Lookup in an insertion-ordered association list (Python `d[k]` / `d.get(k)`).
Returns the value of the first binding of `k`; lists built with `alistUpdate`
have at most one binding per key. -/
def alistGet {K V : Type} [DecidableEq K] : List (K × V) → K → Option V
  | [], _ => none
  | kv :: rest, k => if kv.1 = k then some kv.2 else alistGet rest k

/-- Ordered-dict write `d[k] = f (d.get(k))`: update the existing binding in
place, or append a new binding at the end (Python dicts keep insertion order). -/
def alistUpdate {K V : Type} [DecidableEq K] : List (K × V) → K → (Option V → V) → List (K × V)
  | [], k, f => [(k, f none)]
  | kv :: rest, k, f =>
    if kv.1 = k then (kv.1, f (some kv.2)) :: rest else kv :: alistUpdate rest k f

/-- Python `d.pop(k, None)`: drop the binding of `k` (the first one, as in a
dict, where keys are unique), keeping the order of the others. -/
def popKey {K V : Type} [DecidableEq K] : List (K × V) → K → List (K × V)
  | [], _ => []
  | kv :: rest, k => if kv.1 = k then rest else kv :: popKey rest k

/-- One element of a transaction's `preTokenBalances` / `postTokenBalances`
list: owner, mint, raw integer amount (`none` models null/empty) and the
token's decimal-places count. -/
structure TokenBalanceEntry where
  owner : Owner
  mint : Mint
  rawAmount : Option Int
  decimals : Nat
deriving DecidableEq

/-- `int(entry["uiTokenAmount"]["amount"] or "0")`. -/
def rawOf (e : TokenBalanceEntry) : Int := e.rawAmount.getD 0

/-- The parts of a transaction the core reads: its signature, its first
signer, and the two balance-snapshot lists. -/
structure Transaction where
  signature : String
  signer : Owner
  preTokenBalances : List TokenBalanceEntry
  postTokenBalances : List TokenBalanceEntry
deriving DecidableEq

/-- State of the two accumulators of `construct_balance_changes`:
`per_owner_per_mint_change` and `per_mint_decimals`. -/
structure AccState where
  change : List (Owner × List (Mint × Int))
  decimals : List (Mint × Nat)
deriving DecidableEq

/-- `per_owner_per_mint_change[owner][mint] += d` on the nested defaultdict. -/
def bumpNested (c : List (Owner × List (Mint × Int))) (o : Owner) (m : Mint) (d : Int) :
    List (Owner × List (Mint × Int)) :=
  alistUpdate c o (fun inner => alistUpdate (inner.getD []) m (fun cur => cur.getD 0 + d))

/-- `per_owner_per_mint_change[o][m]` as a partial lookup: the accumulated
integer for owner `o` and mint `m`, when both levels hold a binding. -/
def getNested (c : List (Owner × List (Mint × Int))) (o : Owner) (m : Mint) : Option Int :=
  (alistGet c o).bind (fun inner => alistGet inner m)

/-- One iteration of a balance loop: add `sgn * rawAmount` to the change
accumulator and overwrite the mint's decimals (last value observed wins). -/
def stepEntry (sgn : Int) (s : AccState) (e : TokenBalanceEntry) : AccState :=
  ⟨bumpNested s.change e.owner e.mint (sgn * rawOf e),
   alistUpdate s.decimals e.mint (fun _ => e.decimals)⟩

/-- A whole balance loop: the `post` loop is `applyEntries 1`, the `pre` loop
is `applyEntries (-1)`. -/
def applyEntries (sgn : Int) (l : List TokenBalanceEntry) (s : AccState) : AccState :=
  l.foldl (stepEntry sgn) s

/-- Both accumulation loops of `construct_balance_changes`: post balances are
added first, then pre balances are subtracted. -/
def accumulate (t : Transaction) : AccState :=
  applyEntries (-1) t.preTokenBalances (applyEntries 1 t.postTokenBalances ⟨[], []⟩)

/-- `y / 10 ** per_mint_decimals[x]`, in exact rational arithmetic (written
with `Rat.divInt`, which equals the field division `(y : ℚ) / 10 ^ d`; see
`scaleBy_eq_div`).  The default `0` is never hit by the pipeline: every mint
in the change accumulator also has its decimals recorded. -/
def scaleBy (dec : List (Mint × Nat)) (m : Mint) (y : Int) : ℚ :=
  Rat.divInt y ((10 : Int) ^ ((alistGet dec m).getD 0))

/-- The final dict comprehension of `construct_balance_changes`: keep owners
whose raw accumulator dict is non-empty (`if v` tests the dict before the
zero-entry filter), drop zero-valued entries, and scale the rest. -/
def construct_balance_changes (t : Transaction) : List (Owner × List (Mint × ℚ)) :=
  ((accumulate t).change.filter (fun ov => !ov.2.isEmpty)).map (fun ov =>
    (ov.1, (ov.2.filter (fun my => decide (my.2 ≠ 0))).map
      (fun my => (my.1, scaleBy (accumulate t).decimals my.1 my.2))))

/-- Per-owner token deltas, as handed to the leg detector. -/
abbrev DeltaMap := List (Owner × List (Mint × ℚ))

/-- The swap-leg test of line 189:
`len(per_mint_change) == 2 and prod(per_mint_change.values()) < 0`. -/
def isSwapLeg (inner : List (Mint × ℚ)) : Bool :=
  inner.length == 2 && decide ((inner.map Prod.snd).prod < 0)

/-- Key of `token_change_owners`: `(mint, abs(change))`. -/
abbrev TransferKey := Mint × ℚ

/-- Value of `token_change_owners`: the two slots `[outflow, inflow]`, each
`None` until set. -/
abbrev TransferSlot := Option Owner × Option Owner

/-- Line 191: `token_change_owners[(mint, abs(change))][0 if change < 0 else 1] = owner`. -/
def recordLeg (acc : List (TransferKey × TransferSlot)) (o : Owner) (m : Mint) (v : ℚ) :
    List (TransferKey × TransferSlot) :=
  alistUpdate acc (m, |v|) (fun cur =>
    let s := cur.getD (none, none)
    if v < 0 then (some o, s.2) else (s.1, some o))

/-- The inner loop of line 190: record both of a leg owner's entries. -/
def legWrites (o : Owner) (inner : List (Mint × ℚ)) (acc : List (TransferKey × TransferSlot)) :
    List (TransferKey × TransferSlot) :=
  inner.foldl (fun a mv => recordLeg a o mv.1 mv.2) acc

/-- One iteration of the loop of lines 188-191: owners failing the leg test
contribute nothing. -/
def slotStep (acc : List (TransferKey × TransferSlot)) (ov : Owner × List (Mint × ℚ)) :
    List (TransferKey × TransferSlot) :=
  if isSwapLeg ov.2 then legWrites ov.1 ov.2 acc else acc

/-- The leg-detection and slot-filling loop of lines 188-191. -/
def buildSlots (delta : DeltaMap) : List (TransferKey × TransferSlot) :=
  delta.foldl slotStep []

/-- Line 195, per slot: `v` is kept iff `v[0] and v[1]` is truthy, i.e. both
slots are set and neither owner is the empty string. -/
def slotEdge (ks : TransferKey × TransferSlot) : Option (Owner × Owner) :=
  match ks.2 with
  | (some a, some b) => if a ≠ "" ∧ b ≠ "" then some (a, b) else none
  | _ => none

/-- Line 195: `pairs = [v for v in token_change_owners.values() if v[0] and v[1]]`. -/
def pairsOf (delta : DeltaMap) : List (Owner × Owner) :=
  (buildSlots delta).filterMap slotEdge

/-- `link[0]` of a non-empty link (chain endpoints are only read on links the
builder produced, which are non-empty). -/
def linkHead (l : List Owner) : Owner := l.head?.getD ""

/-- `link[-1]` of a non-empty link. -/
def linkLast (l : List Owner) : Owner := l.getLast?.getD ""

/-- One scan of the `for l in pairs` loop (lines 211-223): find the first edge
whose source is the link's tail (append its destination) or, failing that on
that edge, whose destination is the link's head (prepend its source); remove
the matched edge, keeping the remainder in order.  `none` means no edge
matched. -/
def scanExtend (link : List Owner) :
    List (Owner × Owner) → Option (List Owner × List (Owner × Owner))
  | [] => none
  | p :: rest =>
    if p.1 = linkLast link then some (link ++ [p.2], rest)
    else if p.2 = linkHead link then some (p.1 :: link, rest)
    else
      match scanExtend link rest with
      | some lp => some (lp.1, p :: lp.2)
      | none => none

/-- The inner `while True` loop (lines 206-230) with explicit fuel: keep
extending the link while a scan succeeds.  Each successful scan removes one
edge, so fuel `pairs.length` is enough (proved below). -/
def growChainF : Nat → List Owner → List (Owner × Owner) →
    List Owner × List (Owner × Owner)
  | 0, link, pairs => (link, pairs)
  | fuel + 1, link, pairs =>
    match scanExtend link pairs with
    | none => (link, pairs)
    | some lp => growChainF fuel lp.1 lp.2

/-- The outer `while pairs` loop (lines 203-230) with explicit fuel:
`pairs.pop()` takes the last edge, a new link starts as its two endpoints, the
link grows until no scan matches, and the finalized `(link[0], link[-1])`
pairs are collected in finalization order. -/
def buildChainsF : Nat → List (Owner × Owner) → List (List Owner)
  | 0, _ => []
  | fuel + 1, pairs =>
    match pairs.getLast? with
    | none => []
    | some p =>
      let gr := growChainF fuel [p.1, p.2] pairs.dropLast
      gr.1 :: buildChainsF fuel gr.2

/-- The chain builder, run with fuel equal to the number of edges. -/
def buildChains (pairs : List (Owner × Owner)) : List (List Owner) :=
  buildChainsF pairs.length pairs

/-- The `for first_token, first_value in ...: if first_value > 0: break` loop
of lines 235-237.  When no entry is positive the Python loop variables are
left holding the last entry; on chain endpoints the leg invariant (exactly one
positive and one negative entry) makes that fallback unreachable. -/
def firstPosToken (inner : List (Mint × ℚ)) : Option (Mint × ℚ) :=
  match inner.find? (fun mv => decide (0 < mv.2)) with
  | some mv => some mv
  | none => inner.getLast?

/-- The matching loop of lines 241-243 for the tail owner's negative entry. -/
def firstNegToken (inner : List (Mint × ℚ)) : Option (Mint × ℚ) :=
  match inner.find? (fun mv => decide (mv.2 < 0)) with
  | some mv => some mv
  | none => inner.getLast?

/-- One output row: `(signature, signer, first_token, -(first_value + last_value))`. -/
structure ArbRecord where
  signature : String
  beneficiary : Owner
  mint : Mint
  amount : ℚ
deriving DecidableEq

/-- Lines 232-252 for a single finalized `(first, last)` chain: look up the
head's positive entry and the tail's negative entry and emit a record iff the
tokens coincide. -/
def classifyChain (sig : String) (signer : Owner) (delta : DeltaMap)
    (hl : Owner × Owner) : Option ArbRecord :=
  match firstPosToken ((alistGet delta hl.1).getD []),
        firstNegToken ((alistGet delta hl.2).getD []) with
  | some ft, some lt =>
    if ft.1 = lt.1 then some ⟨sig, signer, ft.1, -(ft.2 + lt.2)⟩ else none
  | _, _ => none

/-- Lines 180-181: the balance deltas with the signer's own entry popped. -/
def pipeDelta (t : Transaction) : DeltaMap :=
  popKey (construct_balance_changes t) t.signer

/-- The transfer edges of the transaction. -/
def pipePairs (t : Transaction) : List (Owner × Owner) := pairsOf (pipeDelta t)

/-- The finalized `(first, last)` chain endpoints, in finalization order. -/
def pipeLinks (t : Transaction) : List (Owner × Owner) :=
  (buildChains (pipePairs t)).map (fun l => (linkHead l, linkLast l))

/-- The per-transaction core: the ArbitrageRecords appended for this
transaction, in chain-finalization order. -/
def pipeline (t : Transaction) : List ArbRecord :=
  (pipeLinks t).filterMap (classifyChain t.signature t.signer (pipeDelta t))

/-! ### Declarative (spec-side) descriptions used by the refinement claims -/

/-- Modelled from the spec (§4.1/§6): the sum of the raw amounts of the
entries of `l` for owner `o` and mint `m`. -/
def sumRaw (o : Owner) (m : Mint) : List TokenBalanceEntry → Int
  | [] => 0
  | e :: rest => (if e.owner = o ∧ e.mint = m then rawOf e else 0) + sumRaw o m rest

/-- Spec §3/§4.1: the net accumulated integer amount for owner `o` and mint
`m`, (sum of post amounts) minus (sum of pre amounts). -/
def netAmount (t : Transaction) (o : Owner) (m : Mint) : Int :=
  sumRaw o m t.postTokenBalances - sumRaw o m t.preTokenBalances

/-- The decimals of the last entry of `l` whose mint is `m` (spec §3: the last
observed value wins; the post list is scanned before the pre list). -/
def lastDecIn (m : Mint) : List TokenBalanceEntry → Option Nat
  | [] => none
  | e :: rest =>
    match lastDecIn m rest with
    | some d => some d
    | none => if e.mint = m then some e.decimals else none

/-- The decimal-places count used to scale mint `m` of transaction `t`. -/
def specDecimals (t : Transaction) (m : Mint) : Nat :=
  (lastDecIn m (t.postTokenBalances ++ t.preTokenBalances)).getD 0

/-- Whether `o` appears as an owner in any entry of `l`. -/
def touchesOwner (l : List TokenBalanceEntry) (o : Owner) : Bool :=
  l.any (fun e => e.owner == o)

/-- Whether the owner/mint pair `(o, m)` appears in any entry of `l`. -/
def touchesOM (l : List TokenBalanceEntry) (o : Owner) (m : Mint) : Bool :=
  l.any (fun e => e.owner == o && e.mint == m)

/-- Modelled from the spec (§4.3): the leg's given side writes slot 0 of the
key (given token, absolute given amount); `inner` has such a write for key `k`
iff some entry has mint `k.1`, a negative value, and absolute value `k.2`. -/
def givesAt (inner : List (Mint × ℚ)) (k : TransferKey) : Bool :=
  inner.any (fun mv => mv.1 == k.1 && decide (mv.2 < 0) && decide (|mv.2| = k.2))

/-- Modelled from the spec (§4.3): the leg's received side writes slot 1 of
the key (received token, received amount); the code routes every non-negative
change there. -/
def receivesAt (inner : List (Mint × ℚ)) (k : TransferKey) : Bool :=
  inner.any (fun mv => mv.1 == k.1 && !(decide (mv.2 < 0)) && decide (|mv.2| = k.2))

/-- Modelled from the spec (§4.3): the last owner, in map order, whose
qualifying swap leg gives exactly key `k` (later legs overwrite slot 0). -/
def lastGiver (k : TransferKey) : DeltaMap → Option Owner
  | [] => none
  | ov :: rest =>
    match lastGiver k rest with
    | some o => some o
    | none => if isSwapLeg ov.2 && givesAt ov.2 k then some ov.1 else none

/-- Modelled from the spec (§4.3): the last owner, in map order, whose
qualifying swap leg receives exactly key `k` (later legs overwrite slot 1). -/
def lastReceiver (k : TransferKey) : DeltaMap → Option Owner
  | [] => none
  | ov :: rest =>
    match lastReceiver k rest with
    | some o => some o
    | none => if isSwapLeg ov.2 && receivesAt ov.2 k then some ov.1 else none

/-- The owner `o` qualifies as a swap leg of `delta`. -/
def LegOwner (delta : DeltaMap) (o : Owner) : Prop :=
  ∃ inner, (o, inner) ∈ delta ∧ isSwapLeg inner = true

/-! ### Concrete transactions used by counterexamples and witnesses -/

/-- The spec's concrete scenario (§8): signer `S`; owner `P` with deltas
tokenA ↦ −30, tokenB ↦ +30; owner `Q` with deltas tokenB ↦ −30, tokenA ↦ +30,
entry order as written in the spec. -/
def scenarioTx : Transaction :=
  ⟨"sig", "S",
   [⟨"P", "tokenA", some 30, 0⟩, ⟨"P", "tokenB", some 0, 0⟩,
    ⟨"Q", "tokenB", some 30, 0⟩, ⟨"Q", "tokenA", some 0, 0⟩],
   [⟨"P", "tokenA", some 0, 0⟩, ⟨"P", "tokenB", some 30, 0⟩,
    ⟨"Q", "tokenB", some 0, 0⟩, ⟨"Q", "tokenA", some 30, 0⟩]⟩

/-- The spec's nonzero-profit variant: `P` with tokenA ↦ +30, tokenB ↦ −30;
`Q` with tokenB ↦ +30, tokenA ↦ −35. -/
def nzTx : Transaction :=
  ⟨"sig2", "S",
   [⟨"P", "tokenB", some 30, 0⟩, ⟨"Q", "tokenA", some 35, 0⟩],
   [⟨"P", "tokenA", some 30, 0⟩, ⟨"Q", "tokenB", some 30, 0⟩]⟩

/-- A transaction in which owner `O` nets to zero on its only token: the raw
accumulator for `O` is non-empty but every accumulated entry is zero. -/
def allZeroTx : Transaction :=
  ⟨"sigz", "S", [⟨"O", "T", some 5, 0⟩], [⟨"O", "T", some 5, 0⟩]⟩

/-- A two-entry transaction with a fractional delta: owner `O` nets `3 / 10`
on mint `M` (post 5, pre 2, one decimal place). -/
def fracTx : Transaction :=
  ⟨"sigf", "S", [⟨"O", "M", some 2, 1⟩], [⟨"O", "M", some 5, 1⟩]⟩

/-! ### Association-list lemmas -/

theorem alistGet_update_self {K V : Type} [DecidableEq K] (l : List (K × V)) (k : K)
    (f : Option V → V) : alistGet (alistUpdate l k f) k = some (f (alistGet l k)) := by
  induction l with
  | nil => simp [alistGet, alistUpdate]
  | cons kv rest ih =>
    by_cases h : kv.1 = k
    · simp [alistGet, alistUpdate, h]
    · simp [alistGet, alistUpdate, h, ih]

theorem alistGet_update_ne {K V : Type} [DecidableEq K] (l : List (K × V)) (k k' : K)
    (f : Option V → V) (hne : k' ≠ k) : alistGet (alistUpdate l k f) k' = alistGet l k' := by
  induction l with
  | nil => simp [alistGet, alistUpdate, Ne.symm hne]
  | cons kv rest ih =>
    by_cases h : kv.1 = k
    · have h2 : kv.1 ≠ k' := by rw [h]; exact Ne.symm hne
      simp [alistGet, alistUpdate, h, h2, Ne.symm hne]
    · by_cases h3 : kv.1 = k'
      · simp [alistGet, alistUpdate, h, h3, hne]
      · simp [alistGet, alistUpdate, h, h3, ih]

theorem mem_alistUpdate {K V : Type} [DecidableEq K] {l : List (K × V)} {k : K}
    {f : Option V → V} {kv : K × V} (h : kv ∈ alistUpdate l k f) :
    kv ∈ l ∨ (kv.1 = k ∧ kv.2 = f (alistGet l k)) := by
  induction l with
  | nil =>
    right
    simp [alistUpdate] at h
    simp [alistGet, h]
  | cons hd rest ih =>
    by_cases hh : hd.1 = k
    · simp only [alistUpdate, if_pos hh] at h
      rcases List.mem_cons.mp h with h1 | h1
      · right
        rw [h1]
        simp [alistGet, hh]
      · exact Or.inl (List.mem_cons_of_mem _ h1)
    · simp only [alistUpdate, if_neg hh] at h
      rcases List.mem_cons.mp h with h1 | h1
      · exact Or.inl (h1 ▸ List.mem_cons_self _ _)
      · rcases ih h1 with h2 | h2
        · exact Or.inl (List.mem_cons_of_mem _ h2)
        · right
          simpa [alistGet, hh] using h2

theorem alistGet_eq_none_iff {K V : Type} [DecidableEq K] (l : List (K × V)) (k : K) :
    alistGet l k = none ↔ k ∉ l.map Prod.fst := by
  induction l with
  | nil => simp [alistGet]
  | cons hd rest ih =>
    by_cases h : hd.1 = k
    · simp [alistGet, h]
    · simp [alistGet, h, ih, Ne.symm h]

theorem mem_of_alistGet {K V : Type} [DecidableEq K] {l : List (K × V)} {k : K} {v : V}
    (h : alistGet l k = some v) : (k, v) ∈ l := by
  induction l with
  | nil => simp [alistGet] at h
  | cons hd rest ih =>
    by_cases hh : hd.1 = k
    · simp only [alistGet, if_pos hh, Option.some.injEq] at h
      exact List.mem_cons.mpr (Or.inl (by rw [← hh, ← h]))
    · simp only [alistGet, if_neg hh] at h
      exact List.mem_cons_of_mem _ (ih h)

theorem alistGet_of_mem_nodup {K V : Type} [DecidableEq K] {l : List (K × V)} {k : K} {v : V}
    (hnd : (l.map Prod.fst).Nodup) (h : (k, v) ∈ l) : alistGet l k = some v := by
  induction l with
  | nil => simp at h
  | cons hd rest ih =>
    simp only [List.map_cons, List.nodup_cons] at hnd
    rcases List.mem_cons.mp h with h1 | h1
    · rw [← h1]
      simp [alistGet]
    · have hne : hd.1 ≠ k := by
        rintro rfl
        exact hnd.1 (List.mem_map.mpr ⟨(hd.1, v), h1, rfl⟩)
      simp [alistGet, hne, ih hnd.2 h1]

theorem keys_alistUpdate {K V : Type} [DecidableEq K] (l : List (K × V)) (k : K)
    (f : Option V → V) :
    (alistUpdate l k f).map Prod.fst =
      if k ∈ l.map Prod.fst then l.map Prod.fst else l.map Prod.fst ++ [k] := by
  induction l with
  | nil => simp [alistUpdate]
  | cons hd rest ih =>
    by_cases h : hd.1 = k
    · simp [alistUpdate, h]
    · simp only [alistUpdate, if_neg h, List.map_cons, ih, List.mem_cons]
      by_cases h2 : k ∈ rest.map Prod.fst
      · simp [h2, Ne.symm h]
      · simp [h2, Ne.symm h]

theorem nodup_keys_alistUpdate {K V : Type} [DecidableEq K] {l : List (K × V)} (k : K)
    (f : Option V → V) (h : (l.map Prod.fst).Nodup) :
    ((alistUpdate l k f).map Prod.fst).Nodup := by
  rw [keys_alistUpdate]
  by_cases hk : k ∈ l.map Prod.fst
  · simpa [hk]
  · simp [hk, List.nodup_append, h]

theorem popKey_sublist {K V : Type} [DecidableEq K] (l : List (K × V)) (k : K) :
    (popKey l k).Sublist l := by
  induction l with
  | nil => simp [popKey]
  | cons hd rest ih =>
    by_cases h : hd.1 = k
    · simp only [popKey, if_pos h]
      exact List.sublist_cons_self _ _
    · simp only [popKey, if_neg h]
      exact List.Sublist.cons₂ _ ih

theorem mem_of_mem_popKey {K V : Type} [DecidableEq K] {l : List (K × V)} {k : K}
    {kv : K × V} (h : kv ∈ popKey l k) : kv ∈ l :=
  (popKey_sublist l k).subset h

theorem not_mem_keys_popKey {K V : Type} [DecidableEq K] {l : List (K × V)} {k : K}
    (hnd : (l.map Prod.fst).Nodup) : k ∉ (popKey l k).map Prod.fst := by
  induction l with
  | nil => simp [popKey]
  | cons hd rest ih =>
    simp only [List.map_cons, List.nodup_cons] at hnd
    by_cases h : hd.1 = k
    · simp only [popKey, if_pos h]
      rw [← h]
      exact hnd.1
    · simp only [popKey, if_neg h, List.map_cons, List.mem_cons]
      rintro (h1 | h1)
      · exact h h1.symm
      · exact ih hnd.2 h1

/-! ### C6: the swap-leg filter -/

/-- The slot-filling fold ignores owners that fail the leg test. -/
theorem slotsFold_filter (d : DeltaMap) (acc : List (TransferKey × TransferSlot)) :
    d.foldl slotStep acc
    = (d.filter
        (fun ov => decide (ov.2.length = 2 ∧ (ov.2.map Prod.snd).prod < 0))).foldl slotStep acc := by
  induction d generalizing acc with
  | nil => rfl
  | cons ov rest ih =>
    have hiff : isSwapLeg ov.2 = true ↔ (ov.2.length = 2 ∧ (ov.2.map Prod.snd).prod < 0) := by
      simp [isSwapLeg]
    by_cases h : isSwapLeg ov.2 = true
    · have hc : decide (ov.2.length = 2 ∧ (ov.2.map Prod.snd).prod < 0) = true := by
        simp only [decide_eq_true_eq]
        exact hiff.mp h
      simp only [List.filter_cons, List.foldl_cons, hc, eq_self_iff_true, if_true]
      exact ih _
    · have hc : decide (ov.2.length = 2 ∧ (ov.2.map Prod.snd).prod < 0) = false := by
        simp only [decide_eq_false_iff_not]
        exact fun hx => h (hiff.mpr hx)
      simp only [List.filter_cons, List.foldl_cons, hc, Bool.false_eq_true, if_false, slotStep,
        if_neg h]
      exact ih _

/-- C6: an owner of the balance-delta map contributes a swap leg iff its delta
set has exactly two token entries whose two values have negative product;
owners failing the test contribute nothing to the matcher. -/
theorem claim6_leg_filter :
    (∀ inner : List (Mint × ℚ),
      isSwapLeg inner = true ↔ inner.length = 2 ∧ (inner.map Prod.snd).prod < 0) ∧
    (∀ delta : DeltaMap,
      pairsOf delta =
        pairsOf (delta.filter
          (fun ov => decide (ov.2.length = 2 ∧ (ov.2.map Prod.snd).prod < 0)))) := by
  refine ⟨fun inner => by simp [isSwapLeg], fun delta => ?_⟩
  unfold pairsOf buildSlots
  rw [slotsFold_filter]

/-! ### C10: determinism of the per-transaction core -/

/-- C10: the per-transaction core is deterministic; two runs of the full
pipeline on identical input (identical entry ordering included) produce
identical record lists.  In this embedding the whole core is a pure function
of the ordered transaction data, so equal inputs give equal outputs. -/
theorem claim10_deterministic (t1 t2 : Transaction) (h : t1 = t2) :
    pipeline t1 = pipeline t2 := by
  rw [h]

/-- Witness for C10 at the spec's concrete scenario. -/
theorem claim10_witness : pipeline scenarioTx = pipeline scenarioTx :=
  claim10_deterministic scenarioTx scenarioTx rfl

/-! ### Chain-builder lemmas -/

theorem mem_of_getLast?_eq {α : Type} {l : List α} {a : α} (h : l.getLast? = some a) :
    a ∈ l :=
  List.mem_of_mem_getLast? (by simp [h])

/-- A successful scan appends to the tail or prepends to the head using an
edge of the work-list, and removes exactly that one edge. -/
theorem scanExtend_spec {link : List Owner} {pairs : List (Owner × Owner)}
    {lp : List Owner × List (Owner × Owner)} (h : scanExtend link pairs = some lp) :
    (∃ p ∈ pairs, lp.1 = link ++ [p.2] ∨ lp.1 = p.1 :: link) ∧
      lp.2.Sublist pairs ∧ lp.2.length + 1 = pairs.length := by
  induction pairs generalizing lp with
  | nil => simp [scanExtend] at h
  | cons p rest ih =>
    by_cases h1 : p.1 = linkLast link
    · simp only [scanExtend, if_pos h1, Option.some.injEq] at h
      subst h
      exact ⟨⟨p, List.mem_cons_self _ _, Or.inl rfl⟩, List.sublist_cons_self _ _, rfl⟩
    · by_cases h2 : p.2 = linkHead link
      · simp only [scanExtend, if_neg h1, if_pos h2, Option.some.injEq] at h
        subst h
        exact ⟨⟨p, List.mem_cons_self _ _, Or.inr rfl⟩, List.sublist_cons_self _ _, rfl⟩
      · simp only [scanExtend, if_neg h1, if_neg h2] at h
        cases hs : scanExtend link rest with
        | none => rw [hs] at h; simp at h
        | some lp0 =>
          rw [hs] at h
          simp only [Option.some.injEq] at h
          subst h
          obtain ⟨⟨q, hq, hq2⟩, hsub, hlen⟩ := ih hs
          refine ⟨⟨q, List.mem_cons_of_mem _ hq, hq2⟩, List.Sublist.cons₂ _ hsub, ?_⟩
          simp only [List.length_cons]
          omega

/-- Each extension moves exactly one edge into the link, so the node count
plus the remaining edge count is invariant. -/
theorem growChainF_len (fuel : Nat) (link : List Owner) (pairs : List (Owner × Owner)) :
    (growChainF fuel link pairs).1.length + (growChainF fuel link pairs).2.length
      = link.length + pairs.length := by
  induction fuel generalizing link pairs with
  | zero => simp [growChainF]
  | succ fuel ih =>
    cases hs : scanExtend link pairs with
    | none => simp [growChainF, hs]
    | some lp =>
      simp only [growChainF, hs]
      obtain ⟨⟨p, _, hp⟩, _, hlen⟩ := scanExtend_spec hs
      have h1 : lp.1.length = link.length + 1 := by
        rcases hp with h | h <;> simp [h]
      rw [ih lp.1 lp.2, h1]
      omega

theorem growChainF_sublist (fuel : Nat) (link : List Owner) (pairs : List (Owner × Owner)) :
    (growChainF fuel link pairs).2.Sublist pairs := by
  induction fuel generalizing link pairs with
  | zero => simp [growChainF]
  | succ fuel ih =>
    cases hs : scanExtend link pairs with
    | none => simp [growChainF, hs]
    | some lp =>
      simp only [growChainF, hs]
      exact (ih lp.1 lp.2).trans (scanExtend_spec hs).2.1

/-- Every node of a grown link is a node of the starting link or an endpoint
of a consumed edge. -/
theorem growChainF_nodes (fuel : Nat) (link : List Owner) (pairs : List (Owner × Owner)) :
    ∀ x ∈ (growChainF fuel link pairs).1, x ∈ link ∨ ∃ p ∈ pairs, x = p.1 ∨ x = p.2 := by
  induction fuel generalizing link pairs with
  | zero =>
    intro x hx
    exact Or.inl (by simpa [growChainF] using hx)
  | succ fuel ih =>
    intro x hx
    cases hs : scanExtend link pairs with
    | none =>
      simp only [growChainF, hs] at hx
      exact Or.inl hx
    | some lp =>
      simp only [growChainF, hs] at hx
      obtain ⟨⟨q, hq, hq2⟩, hsub, _⟩ := scanExtend_spec hs
      rcases ih lp.1 lp.2 x hx with hx1 | ⟨r, hr, hr2⟩
      · rcases hq2 with he | he
        · rw [he] at hx1
          rcases List.mem_append.mp hx1 with hx2 | hx2
          · exact Or.inl hx2
          · exact Or.inr ⟨q, hq, Or.inr (by simpa using hx2)⟩
        · rw [he] at hx1
          rcases List.mem_cons.mp hx1 with hx2 | hx2
          · exact Or.inr ⟨q, hq, Or.inl hx2⟩
          · exact Or.inl hx2
      · exact Or.inr ⟨r, hsub.subset hr, hr2⟩

/-- Edge-count bookkeeping of the outer loop: with enough fuel, the finalized
links hold one more node than the number of edges merged into them, and the
per-link edge counts sum to the input edge count. -/
theorem buildChainsF_sum (fuel : Nat) :
    ∀ pairs : List (Owner × Owner), pairs.length ≤ fuel →
      ((buildChainsF fuel pairs).map (fun l => l.length - 1)).sum = pairs.length := by
  induction fuel with
  | zero =>
    intro pairs h
    have hp : pairs = [] := List.length_eq_zero.mp (Nat.le_zero.mp h)
    simp [hp, buildChainsF]
  | succ fuel ih =>
    intro pairs h
    cases hl : pairs.getLast? with
    | none =>
      have hp : pairs = [] := List.getLast?_eq_none_iff.mp hl
      simp [buildChainsF, hl, hp]
    | some p =>
      simp only [buildChainsF, hl]
      have hne : pairs ≠ [] := by
        rintro rfl
        simp at hl
      have hpos : 0 < pairs.length := List.length_pos.mpr hne
      have hdl : pairs.dropLast.length = pairs.length - 1 := List.length_dropLast pairs
      have hsum := growChainF_len fuel [p.1, p.2] pairs.dropLast
      have hle := (growChainF_sublist fuel [p.1, p.2] pairs.dropLast).length_le
      have hrec := ih (growChainF fuel [p.1, p.2] pairs.dropLast).2 (by omega)
      simp only [List.map_cons, List.sum_cons, hrec]
      simp only [List.length_cons, List.length_nil] at hsum
      omega

/-- C4: ChainBuilder consumes every TransferEdge exactly once; summing, over
the finalized chains, the number of edges merged into each chain (one fewer
than the chain's node count) gives back the input edge count. -/
theorem claim4_edge_coverage (pairs : List (Owner × Owner)) :
    ((buildChains pairs).map (fun l => l.length - 1)).sum = pairs.length :=
  buildChainsF_sum pairs.length pairs le_rfl

/-- Extra fuel beyond the remaining edge count never changes the result of
the inner loop: it stops by itself. -/
theorem growChainF_stable (fuel extra : Nat) :
    ∀ (link : List Owner) (pairs : List (Owner × Owner)), pairs.length ≤ fuel →
      growChainF (fuel + extra) link pairs = growChainF fuel link pairs := by
  induction fuel with
  | zero =>
    intro link pairs h
    have hp : pairs = [] := List.length_eq_zero.mp (Nat.le_zero.mp h)
    subst hp
    cases extra with
    | zero => rfl
    | succ e => simp [growChainF, scanExtend]
  | succ fuel ih =>
    intro link pairs h
    have heq : fuel + 1 + extra = (fuel + extra) + 1 := by omega
    rw [heq]
    cases hs : scanExtend link pairs with
    | none => simp [growChainF, hs]
    | some lp =>
      simp only [growChainF, hs]
      have hlen := (scanExtend_spec hs).2.2
      exact ih lp.1 lp.2 (by omega)

/-- Extra fuel beyond the edge count never changes the outer loop's result. -/
theorem buildChainsF_stable (fuel extra : Nat) :
    ∀ pairs : List (Owner × Owner), pairs.length ≤ fuel →
      buildChainsF (fuel + extra) pairs = buildChainsF fuel pairs := by
  induction fuel with
  | zero =>
    intro pairs h
    have hp : pairs = [] := List.length_eq_zero.mp (Nat.le_zero.mp h)
    subst hp
    cases extra with
    | zero => rfl
    | succ e => simp [buildChainsF]
  | succ fuel ih =>
    intro pairs h
    have heq : fuel + 1 + extra = (fuel + extra) + 1 := by omega
    rw [heq]
    cases hl : pairs.getLast? with
    | none => simp [buildChainsF, hl]
    | some p =>
      simp only [buildChainsF, hl]
      have hne : pairs ≠ [] := by
        rintro rfl
        simp at hl
      have hpos : 0 < pairs.length := List.length_pos.mpr hne
      have hdl : pairs.dropLast.length = pairs.length - 1 := List.length_dropLast pairs
      rw [growChainF_stable fuel extra _ _ (by omega)]
      have hle := (growChainF_sublist fuel [p.1, p.2] pairs.dropLast).length_le
      rw [ih _ (by omega)]

/-- C9: ChainBuilder terminates on every finite edge list, self-loop edges
included: running the (fueled) loops with any fuel at least the edge count
gives the same finalized chains as `buildChains`, i.e. the merge completes
within `pairs.length` rounds and never loops forever. -/
theorem claim9_builder_terminates (pairs : List (Owner × Owner)) (fuel : Nat)
    (h : pairs.length ≤ fuel) : buildChainsF fuel pairs = buildChains pairs := by
  unfold buildChains
  have heq : fuel = pairs.length + (fuel - pairs.length) := by omega
  rw [heq, buildChainsF_stable pairs.length (fuel - pairs.length) pairs le_rfl]

/-- Witness for C9 on a concrete work-list holding one self-loop edge. -/
theorem claim9_witness :
    buildChainsF 1 [("x", "x")] = buildChains [("x", "x")] ∧
      buildChains [("x", "x")] = [["x", "x"]] :=
  ⟨claim9_builder_terminates [("x", "x")] 1 (by decide), by decide⟩

/-- Every finalized chain has at least two nodes, and all its nodes are
endpoints of input edges. -/
theorem buildChains_nodes {pairs : List (Owner × Owner)} {l : List Owner}
    (hl : l ∈ buildChains pairs) :
    2 ≤ l.length ∧ ∀ x ∈ l, ∃ p ∈ pairs, x = p.1 ∨ x = p.2 := by
  unfold buildChains at hl
  generalize hfuel : pairs.length = fuel at hl
  clear hfuel
  induction fuel generalizing pairs with
  | zero => simp [buildChainsF] at hl
  | succ fuel ih =>
    cases hlast : pairs.getLast? with
    | none =>
      rw [buildChainsF, hlast] at hl
      simp at hl
    | some p =>
      rw [buildChainsF, hlast] at hl
      simp only [List.mem_cons] at hl
      have hpmem : p ∈ pairs := mem_of_getLast?_eq hlast
      have hdrop : ∀ q ∈ pairs.dropLast, q ∈ pairs :=
        fun q hq => (List.dropLast_sublist pairs).subset hq
      rcases hl with hl | hl
      · constructor
        · have hsum := growChainF_len fuel [p.1, p.2] pairs.dropLast
          have hle := (growChainF_sublist fuel [p.1, p.2] pairs.dropLast).length_le
          rw [hl]
          simp only [List.length_cons, List.length_nil] at hsum
          omega
        · intro x hx
          rw [hl] at hx
          rcases growChainF_nodes fuel [p.1, p.2] pairs.dropLast x hx with hx1 | ⟨q, hq, hq2⟩
          · exact ⟨p, hpmem, List.mem_pair.mp hx1⟩
          · exact ⟨q, hdrop q hq, hq2⟩
      · obtain ⟨h2, hcov⟩ := ih hl
        refine ⟨h2, fun x hx => ?_⟩
        obtain ⟨q, hq, hq2⟩ := hcov x hx
        have hq3 : q ∈ pairs.dropLast :=
          (growChainF_sublist fuel [p.1, p.2] pairs.dropLast).subset hq
        exact ⟨q, hdrop q hq3, hq2⟩

/-! ### Slot owners come from qualifying legs -/

theorem alistUpdate_ne_nil {K V : Type} [DecidableEq K] (l : List (K × V)) (k : K)
    (f : Option V → V) : alistUpdate l k f ≠ [] := by
  cases l with
  | nil => simp [alistUpdate]
  | cons kv rest =>
    by_cases h : kv.1 = k <;> simp [alistUpdate, h]

theorem slot_owner_recordLeg {acc : List (TransferKey × TransferSlot)} {o : Owner}
    {m : Mint} {v : ℚ} {ks : TransferKey × TransferSlot} {x : Owner}
    (h : ks ∈ recordLeg acc o m v) (hx : ks.2.1 = some x ∨ ks.2.2 = some x) :
    x = o ∨ ∃ ks0 ∈ acc, ks0.2.1 = some x ∨ ks0.2.2 = some x := by
  unfold recordLeg at h
  rcases mem_alistUpdate h with h1 | ⟨hk, hv⟩
  · exact Or.inr ⟨ks, h1, hx⟩
  · rw [hv] at hx
    simp only at hx
    cases hget : alistGet acc (m, |v|) with
    | none =>
      rw [hget] at hx
      by_cases hvn : v < 0 <;> simp [hvn, Option.getD] at hx <;> exact Or.inl hx.symm
    | some s0 =>
      rw [hget] at hx
      by_cases hvn : v < 0
      · simp only [hvn, if_true, Option.getD_some] at hx
        rcases hx with hx | hx
        · exact Or.inl (Option.some.inj hx).symm
        · exact Or.inr ⟨((m, |v|), s0), mem_of_alistGet hget, Or.inr hx⟩
      · simp only [hvn, if_false, Option.getD_some] at hx
        rcases hx with hx | hx
        · exact Or.inr ⟨((m, |v|), s0), mem_of_alistGet hget, Or.inl hx⟩
        · exact Or.inl (Option.some.inj hx).symm

theorem slot_owner_legWrites {o x : Owner} (inner : List (Mint × ℚ)) :
    ∀ (acc : List (TransferKey × TransferSlot)) (ks : TransferKey × TransferSlot),
      ks ∈ legWrites o inner acc → (ks.2.1 = some x ∨ ks.2.2 = some x) →
      x = o ∨ ∃ ks0 ∈ acc, ks0.2.1 = some x ∨ ks0.2.2 = some x := by
  induction inner with
  | nil =>
    intro acc ks h hx
    exact Or.inr ⟨ks, h, hx⟩
  | cons mv rest ih =>
    intro acc ks h hx
    simp only [legWrites, List.foldl_cons] at h
    rcases ih (recordLeg acc o mv.1 mv.2) ks h hx with h1 | ⟨ks0, hks0, hx0⟩
    · exact Or.inl h1
    · rcases slot_owner_recordLeg hks0 hx0 with h2 | h2
      · exact Or.inl h2
      · exact Or.inr h2

theorem slot_owner_fold {x : Owner} (delta : DeltaMap) :
    ∀ (acc : List (TransferKey × TransferSlot)) (ks : TransferKey × TransferSlot),
      ks ∈ delta.foldl slotStep acc → (ks.2.1 = some x ∨ ks.2.2 = some x) →
      LegOwner delta x ∨ ∃ ks0 ∈ acc, ks0.2.1 = some x ∨ ks0.2.2 = some x := by
  induction delta with
  | nil =>
    intro acc ks h hx
    exact Or.inr ⟨ks, h, hx⟩
  | cons ov rest ih =>
    intro acc ks h hx
    simp only [List.foldl_cons] at h
    rcases ih _ ks h hx with h1 | ⟨ks0, hks0, hx0⟩
    · obtain ⟨inner, hmem, hleg⟩ := h1
      exact Or.inl ⟨inner, List.mem_cons_of_mem _ hmem, hleg⟩
    · unfold slotStep at hks0
      by_cases hleg : isSwapLeg ov.2 = true
      · rw [if_pos hleg] at hks0
        rcases slot_owner_legWrites ov.2 acc ks0 hks0 hx0 with h2 | h2
        · refine Or.inl ⟨ov.2, ?_, hleg⟩
          rw [h2]
          exact List.mem_cons_self _ _
        · exact Or.inr h2
      · rw [if_neg hleg] at hks0
        exact Or.inr ⟨ks0, hks0, hx0⟩

/-- Both endpoints of an emitted TransferEdge are qualifying, non-empty leg
owners of the delta map. -/
theorem pairsOf_mem_legOwner {delta : DeltaMap} {ab : Owner × Owner}
    (h : ab ∈ pairsOf delta) :
    LegOwner delta ab.1 ∧ LegOwner delta ab.2 ∧ ab.1 ≠ "" ∧ ab.2 ≠ "" := by
  unfold pairsOf at h
  obtain ⟨ks, hks, hedge⟩ := List.mem_filterMap.mp h
  unfold slotEdge at hedge
  obtain ⟨k, s1, s2⟩ := ks
  cases s1 with
  | none => simp at hedge
  | some a =>
    cases s2 with
    | none => simp at hedge
    | some b =>
      simp only at hedge
      by_cases hne : a ≠ "" ∧ b ≠ ""
      · rw [if_pos hne, Option.some.injEq] at hedge
        subst hedge
        have hA := slot_owner_fold delta [] (k, some a, some b) hks (Or.inl rfl)
        have hB := slot_owner_fold delta [] (k, some a, some b) hks (Or.inr rfl)
        simp only [List.not_mem_nil, false_and, exists_const, or_false] at hA hB
        exact ⟨by simpa using hA, by simpa using hB, hne.1, hne.2⟩
      · rw [if_neg hne] at hedge
        simp at hedge

/-! ### Key uniqueness of the extractor output -/

theorem inner_nodup_bumpNested {c : List (Owner × List (Mint × Int))} {o : Owner} {m : Mint}
    {d : Int} (h : ∀ ov ∈ c, (ov.2.map Prod.fst).Nodup) :
    ∀ ov ∈ bumpNested c o m d, (ov.2.map Prod.fst).Nodup := by
  intro ov hov
  unfold bumpNested at hov
  rcases mem_alistUpdate hov with h1 | ⟨hk, hv⟩
  · exact h ov h1
  · rw [hv]
    apply nodup_keys_alistUpdate
    cases hg : alistGet c o with
    | none => simp
    | some inner =>
      simp only [Option.getD_some]
      exact h (o, inner) (mem_of_alistGet hg)

theorem inner_ne_nil_bumpNested {c : List (Owner × List (Mint × Int))} {o : Owner} {m : Mint}
    {d : Int} (h : ∀ ov ∈ c, ov.2 ≠ []) :
    ∀ ov ∈ bumpNested c o m d, ov.2 ≠ [] := by
  intro ov hov
  unfold bumpNested at hov
  rcases mem_alistUpdate hov with h1 | ⟨hk, hv⟩
  · exact h ov h1
  · rw [hv]
    exact alistUpdate_ne_nil _ _ _

/-- The three structural invariants of the change accumulator: unique owner
keys, unique mint keys per owner, and a non-empty entry list per owner. -/
theorem accState_invariant (sgn : Int) (l : List TokenBalanceEntry) :
    ∀ s : AccState,
      (s.change.map Prod.fst).Nodup ∧ (∀ ov ∈ s.change, (ov.2.map Prod.fst).Nodup) ∧
        (∀ ov ∈ s.change, ov.2 ≠ []) →
      ((applyEntries sgn l s).change.map Prod.fst).Nodup ∧
        (∀ ov ∈ (applyEntries sgn l s).change, (ov.2.map Prod.fst).Nodup) ∧
        (∀ ov ∈ (applyEntries sgn l s).change, ov.2 ≠ []) := by
  induction l with
  | nil => intro s h; exact h
  | cons e rest ih =>
    intro s h
    obtain ⟨h1, h2, h3⟩ := h
    apply ih
    refine ⟨nodup_keys_alistUpdate _ _ h1, inner_nodup_bumpNested h2,
      inner_ne_nil_bumpNested h3⟩

theorem keys_map_transform {K V W : Type} (l : List (K × V)) (g : K × V → W) :
    (l.map (fun kv => (kv.1, g kv))).map Prod.fst = l.map Prod.fst := by
  induction l with
  | nil => rfl
  | cons kv rest ih => simp [ih]

/-- The extractor's output has unique owner keys, and each owner's entry list
has unique mint keys. -/
theorem construct_keys_nodup (t : Transaction) :
    ((construct_balance_changes t).map Prod.fst).Nodup ∧
      ∀ ov ∈ construct_balance_changes t, (ov.2.map Prod.fst).Nodup := by
  have hbase : (([] : List (Owner × List (Mint × Int))).map Prod.fst).Nodup ∧
      (∀ ov ∈ ([] : List (Owner × List (Mint × Int))), (ov.2.map Prod.fst).Nodup) ∧
      (∀ ov ∈ ([] : List (Owner × List (Mint × Int))), ov.2 ≠ []) := by simp
  have hacc := accState_invariant (-1) t.preTokenBalances
    (applyEntries 1 t.postTokenBalances ⟨[], []⟩)
    (accState_invariant 1 t.postTokenBalances ⟨[], []⟩ hbase)
  obtain ⟨hnd, hinner, _⟩ := hacc
  constructor
  · unfold construct_balance_changes
    rw [keys_map_transform]
    exact hnd.sublist ((List.filter_sublist _).map Prod.fst)
  · intro ov hov
    unfold construct_balance_changes at hov
    obtain ⟨ov0, hov0, heq⟩ := List.mem_map.mp hov
    rw [← heq]
    simp only
    rw [keys_map_transform]
    have hov0' : ov0 ∈ (accumulate t).change := (List.filter_sublist _).subset hov0
    exact (hinner ov0 hov0').sublist ((List.filter_sublist _).map Prod.fst)

theorem linkHead_mem {l : List Owner} (h : l ≠ []) : linkHead l ∈ l := by
  cases l with
  | nil => exact absurd rfl h
  | cons a rest => simp [linkHead]

theorem linkLast_mem {l : List Owner} (h : l ≠ []) : linkLast l ∈ l := by
  unfold linkLast
  cases hg : l.getLast? with
  | none => exact absurd (List.getLast?_eq_none_iff.mp hg) h
  | some a => simpa using mem_of_getLast?_eq hg

/-! ### C7: the signer is excluded from legs, edges and chains -/

/-- C7: the signer's own delta entry is popped before leg detection, so the
signer is not an owner of the delta map, never qualifies as a SwapLeg owner,
is not an endpoint of any TransferEdge, and is not the head or tail of any
finalized chain. -/
theorem claim7_signer_excluded (t : Transaction) :
    t.signer ∉ (pipeDelta t).map Prod.fst ∧
      (∀ o, LegOwner (pipeDelta t) o → o ≠ t.signer) ∧
      (∀ q ∈ pipePairs t, q.1 ≠ t.signer ∧ q.2 ≠ t.signer) ∧
      (∀ hl ∈ pipeLinks t, hl.1 ≠ t.signer ∧ hl.2 ≠ t.signer) := by
  have hnotin : t.signer ∉ (pipeDelta t).map Prod.fst :=
    not_mem_keys_popKey (construct_keys_nodup t).1
  have hleg : ∀ o, LegOwner (pipeDelta t) o → o ≠ t.signer := by
    rintro o ⟨inner, hmem, _⟩ rfl
    exact hnotin (List.mem_map.mpr ⟨(t.signer, inner), hmem, rfl⟩)
  have hpairs : ∀ q ∈ pipePairs t, q.1 ≠ t.signer ∧ q.2 ≠ t.signer := by
    intro q hq
    obtain ⟨hA, hB, _, _⟩ := pairsOf_mem_legOwner hq
    exact ⟨hleg _ hA, hleg _ hB⟩
  refine ⟨hnotin, hleg, hpairs, ?_⟩
  intro hl hhl
  unfold pipeLinks at hhl
  obtain ⟨l, hlmem, hfl⟩ := List.mem_map.mp hhl
  obtain ⟨hlen, hcov⟩ := buildChains_nodes hlmem
  have hne : l ≠ [] := by
    intro hnil
    rw [hnil] at hlen
    simp at hlen
  rw [← hfl]
  constructor
  · obtain ⟨p, hp, hp2⟩ := hcov _ (linkHead_mem hne)
    obtain ⟨hA, hB, _, _⟩ := pairsOf_mem_legOwner hp
    simp only
    rcases hp2 with h | h
    · rw [h]; exact hleg _ hA
    · rw [h]; exact hleg _ hB
  · obtain ⟨p, hp, hp2⟩ := hcov _ (linkLast_mem hne)
    obtain ⟨hA, hB, _, _⟩ := pairsOf_mem_legOwner hp
    simp only
    rcases hp2 with h | h
    · rw [h]; exact hleg _ hA
    · rw [h]; exact hleg _ hB

/-- Witness for C7: in the concrete scenario, both endpoints of the emitted
edge (P, Q) differ from the signer S. -/
theorem claim7_witness : ("P" : Owner) ≠ scenarioTx.signer ∧ ("Q" : Owner) ≠ scenarioTx.signer :=
  (claim7_signer_excluded scenarioTx).2.2.1 ("P", "Q") (by with_unfolding_all decide)

/-! ### C1: the spec's concrete two-owner scenario -/

/-- C1 counterexample: on the spec's concrete scenario (signer S, owner P with
tokenA ↦ −30 and tokenB ↦ +30, owner Q with tokenB ↦ −30 and tokenA ↦ +30) the
pipeline emits no ArbitrageRecord at all, contradicting the claimed single
record (sig, S, tokenB, 0). -/
theorem claim1_counterexample :
    pipeline scenarioTx = [] ∧
      pipeline scenarioTx ≠ [⟨"sig", "S", "tokenB", 0⟩] := by
  with_unfolding_all decide

/-- C1 amended: the scenario produces exactly the two claimed TransferEdges —
tokenA/30 gives edge (P, Q) and tokenB/30 gives edge (Q, P) — and ChainBuilder
merges them into a single chain, but that chain closes into a 2-node loop with
head = tail = Q, so the classifier compares Q's positive token (tokenA) with
Q's own negative token (tokenB), finds them different, and emits no
ArbitrageRecord. -/
theorem claim1_amended :
    pipePairs scenarioTx = [("P", "Q"), ("Q", "P")] ∧
      buildChains (pipePairs scenarioTx) = [["Q", "P", "Q"]] ∧
      pipeLinks scenarioTx = [("Q", "Q")] ∧
      pipeline scenarioTx = [] := by
  with_unfolding_all decide

/-! ### C2: classification of a finalized chain -/

theorem find?_of_filter_eq_singleton {α : Type} {p : α → Bool} {l : List α} {a : α}
    (h : l.filter p = [a]) : l.find? p = some a := by
  induction l with
  | nil => simp at h
  | cons x rest ih =>
    by_cases hx : p x = true
    · rw [List.filter_cons_of_pos hx] at h
      simp only [List.cons.injEq] at h
      rw [List.find?_cons_of_pos _ hx, h.1]
    · have hx' : p x = false := by simpa using hx
      rw [List.filter_cons_of_neg (by simp [hx'])] at h
      rw [List.find?_cons_of_neg _ (by simp [hx'])]
      exact ih h

/-- C2: for a finalized chain (h, tl) whose head owner's unique positive
entry is (tH, vH) and whose tail owner's unique negative entry is (tT, vT),
the classifier appends exactly one record (signature, signer, tH, −(vH+vT))
when tH = tT, and nothing when tH ≠ tT; the emitted record list is exactly
the per-chain contributions of the finalized chains. -/
theorem claim2_chain_classification (t : Transaction) (h tl : Owner)
    (innerH innerT : List (Mint × ℚ)) (tH tT : Mint) (vH vT : ℚ)
    (hmem : (h, tl) ∈ pipeLinks t)
    (hgetH : alistGet (pipeDelta t) h = some innerH)
    (hposH : innerH.filter (fun mv => decide (0 < mv.2)) = [(tH, vH)])
    (hgetT : alistGet (pipeDelta t) tl = some innerT)
    (hnegT : innerT.filter (fun mv => decide (mv.2 < 0)) = [(tT, vT)]) :
    pipeline t = (pipeLinks t).filterMap (classifyChain t.signature t.signer (pipeDelta t)) ∧
      (tH = tT → classifyChain t.signature t.signer (pipeDelta t) (h, tl) =
        some ⟨t.signature, t.signer, tH, -(vH + vT)⟩) ∧
      (tH ≠ tT → classifyChain t.signature t.signer (pipeDelta t) (h, tl) = none) := by
  have hfindH := find?_of_filter_eq_singleton hposH
  have hfindT := find?_of_filter_eq_singleton hnegT
  refine ⟨rfl, ?_, ?_⟩ <;> intro hcond <;>
    simp [classifyChain, hgetH, hgetT, firstPosToken, firstNegToken, hfindH, hfindT, hcond]

/-- Witness for C2 on the nonzero-profit variant: head P (tokenA, +30), tail
Q (tokenA, −35); matching round-trip token, profit 5. -/
theorem claim2_witness :
    classifyChain nzTx.signature nzTx.signer (pipeDelta nzTx) ("P", "Q") =
      some ⟨"sig2", "S", "tokenA", 5⟩ := by
  have hmain := claim2_chain_classification nzTx "P" "Q"
    [("tokenA", 30), ("tokenB", -30)] [("tokenB", 30), ("tokenA", -35)]
    "tokenA" "tokenA" 30 (-35)
    (by with_unfolding_all decide) (by with_unfolding_all decide)
    (by with_unfolding_all decide) (by with_unfolding_all decide)
    (by with_unfolding_all decide)
  rw [hmain.2.1 rfl]
  norm_num [ArbRecord.mk.injEq]
  exact ⟨rfl, rfl⟩

/-! ### C3: closed-loop chains never emit a record -/

/-- A chain endpoint that is its own counterpart cannot round-trip: a swap
leg has exactly two entries of opposite sign on distinct mints, so the
owner's positive mint differs from its own negative mint. -/
theorem classifyChain_loop_none {sig : String} {signer : Owner} {delta : DeltaMap}
    {o : Owner} {inner : List (Mint × ℚ)}
    (hget : alistGet delta o = some inner)
    (hleg : isSwapLeg inner = true)
    (hnd : (inner.map Prod.fst).Nodup) :
    classifyChain sig signer delta (o, o) = none := by
  have hlen : inner.length = 2 ∧ (inner.map Prod.snd).prod < 0 := by
    simpa [isSwapLeg] using hleg
  obtain ⟨x, y, rfl⟩ := List.length_eq_two.mp hlen.1
  have hprod : x.2 * y.2 < 0 := by
    have := hlen.2
    simpa [mul_comm] using this
  have hne : x.1 ≠ y.1 := by
    simp only [List.map_cons, List.map_nil, List.nodup_cons, List.mem_cons] at hnd
    exact fun hx => hnd.1 (Or.inl hx)
  rcases mul_neg_iff.mp hprod with ⟨hx, hy⟩ | ⟨hx, hy⟩
  · have h1 : decide (0 < x.2) = true := decide_eq_true hx
    have h2 : decide (x.2 < 0) = false := decide_eq_false (not_lt.mpr (le_of_lt hx))
    have h3 : decide (y.2 < 0) = true := decide_eq_true hy
    simp [classifyChain, hget, firstPosToken, firstNegToken, List.find?, h1, h2, h3, hne]
  · have h1 : decide (0 < x.2) = false := decide_eq_false (not_lt.mpr (le_of_lt hx))
    have h2 : decide (0 < y.2) = true := decide_eq_true hy
    have h3 : decide (x.2 < 0) = true := decide_eq_true hx
    simp [classifyChain, hget, firstPosToken, firstNegToken, List.find?, h1, h2, h3,
      Ne.symm hne]

theorem pipeDelta_keys_nodup (t : Transaction) : ((pipeDelta t).map Prod.fst).Nodup :=
  ((construct_keys_nodup t).1).sublist ((popKey_sublist _ _).map Prod.fst)

/-- C3: a finalized chain whose head owner equals its tail owner (a closed
loop, self-loops included) never yields an ArbitrageRecord, because every
chain endpoint is a SwapLeg owner with exactly two opposite-signed entries on
distinct mints. -/
theorem claim3_loop_chains_emit_nothing (t : Transaction) (h tl : Owner)
    (hmem : (h, tl) ∈ pipeLinks t) (heq : h = tl) :
    classifyChain t.signature t.signer (pipeDelta t) (h, tl) = none := by
  subst heq
  unfold pipeLinks at hmem
  obtain ⟨l, hlmem, hfl⟩ := List.mem_map.mp hmem
  obtain ⟨hlen, hcov⟩ := buildChains_nodes hlmem
  have hne : l ≠ [] := by
    intro hnil
    rw [hnil] at hlen
    simp at hlen
  have hhead : linkHead l = h := congrArg Prod.fst hfl
  obtain ⟨p, hp, hp2⟩ := hcov h (hhead ▸ linkHead_mem hne)
  have hLO : LegOwner (pipeDelta t) h := by
    obtain ⟨hA, hB, _, _⟩ := pairsOf_mem_legOwner hp
    rcases hp2 with h2 | h2
    · rw [h2]; exact hA
    · rw [h2]; exact hB
  obtain ⟨inner, hmem2, hleg⟩ := hLO
  have hget := alistGet_of_mem_nodup (pipeDelta_keys_nodup t) hmem2
  have hinnd : (inner.map Prod.fst).Nodup :=
    (construct_keys_nodup t).2 (h, inner) (mem_of_mem_popKey hmem2)
  exact classifyChain_loop_none hget hleg hinnd

/-- Witness for C3 at the concrete scenario, whose single chain is the closed
loop (Q, Q). -/
theorem claim3_witness :
    classifyChain scenarioTx.signature scenarioTx.signer (pipeDelta scenarioTx) ("Q", "Q")
      = none :=
  claim3_loop_chains_emit_nothing scenarioTx "Q" "Q" (by with_unfolding_all decide) rfl

/-! ### C8: the extractor computes scaled net amounts -/

theorem getNested_bump_self (c : List (Owner × List (Mint × Int))) (o : Owner) (m : Mint)
    (d : Int) : getNested (bumpNested c o m d) o m = some ((getNested c o m).getD 0 + d) := by
  unfold getNested bumpNested
  rw [alistGet_update_self]
  simp only [Option.some_bind]
  rw [alistGet_update_self]
  cases hg : alistGet c o with
  | none => simp [hg, alistGet]
  | some inner => simp [hg]

theorem getNested_bump_ne (c : List (Owner × List (Mint × Int))) {o o' : Owner} {m m' : Mint}
    (d : Int) (hne : o' ≠ o ∨ m' ≠ m) :
    getNested (bumpNested c o m d) o' m' = getNested c o' m' := by
  unfold getNested bumpNested
  rcases hne with hne | hne
  · rw [alistGet_update_ne _ _ _ _ hne]
  · by_cases ho : o' = o
    · subst ho
      rw [alistGet_update_self]
      simp only [Option.some_bind]
      rw [alistGet_update_ne _ _ _ _ hne]
      cases hg : alistGet c o' with
      | none => simp [hg, alistGet]
      | some inner => simp [hg]
    · rw [alistGet_update_ne _ _ _ _ ho]

theorem sumRaw_eq_zero {o : Owner} {m : Mint} :
    ∀ {l : List TokenBalanceEntry}, touchesOM l o m = false → sumRaw o m l = 0 := by
  intro l
  induction l with
  | nil => intro _; rfl
  | cons e rest ih =>
    intro h
    simp only [touchesOM, List.any_cons, Bool.or_eq_false_iff] at h
    have he : ¬(e.owner = o ∧ e.mint = m) := by
      intro ⟨h1, h2⟩
      simp [h1, h2] at h
    have hrest : touchesOM rest o m = false := h.2
    simp [sumRaw, he, ih hrest]

theorem getNested_applyEntries (sgn : Int) (l : List TokenBalanceEntry) (o : Owner)
    (m : Mint) :
    ∀ s : AccState,
      getNested (applyEntries sgn l s).change o m =
        if touchesOM l o m then some ((getNested s.change o m).getD 0 + sgn * sumRaw o m l)
        else getNested s.change o m := by
  induction l with
  | nil => intro s; simp [applyEntries, touchesOM, sumRaw]
  | cons e rest ih =>
    intro s
    rw [show applyEntries sgn (e :: rest) s = applyEntries sgn rest (stepEntry sgn s e)
      from rfl, ih]
    by_cases he : e.owner = o ∧ e.mint = m
    · have hb : getNested (stepEntry sgn s e).change o m
          = some ((getNested s.change o m).getD 0 + sgn * rawOf e) := by
        unfold stepEntry
        simp only
        rw [he.1, he.2]
        exact getNested_bump_self _ _ _ _
      have hany : touchesOM (e :: rest) o m = true := by
        simp [touchesOM, he.1, he.2]
      have hsum : sumRaw o m (e :: rest) = rawOf e + sumRaw o m rest := by
        simp [sumRaw, he]
      by_cases ht : touchesOM rest o m = true
      · rw [if_pos ht, hany, if_pos rfl, hb, hsum]
        simp only [Option.getD_some]
        congr 1
        ring
      · have ht' : touchesOM rest o m = false := by simpa using ht
        rw [if_neg (by simp [ht']), hany, if_pos rfl, hb, hsum, sumRaw_eq_zero ht']
        congr 2
        ring
    · have hb : getNested (stepEntry sgn s e).change o m = getNested s.change o m := by
        unfold stepEntry
        simp only
        apply getNested_bump_ne
        by_cases h1 : e.owner = o
        · exact Or.inr (fun h2 => he ⟨h1, h2.symm⟩)
        · exact Or.inl (fun h2 => h1 h2.symm)
      have hany : touchesOM (e :: rest) o m = touchesOM rest o m := by
        have : ¬(e.owner == o && e.mint == m) = true := by
          simp only [Bool.and_eq_true, beq_iff_eq]
          exact he
        simp only [touchesOM, List.any_cons]
        simp [this]
      have hsum : sumRaw o m (e :: rest) = sumRaw o m rest := by
        simp [sumRaw, he]
      rw [hb, hany, hsum]

theorem outerGet_applyEntries (sgn : Int) (l : List TokenBalanceEntry) (o : Owner) :
    ∀ s : AccState,
      (alistGet (applyEntries sgn l s).change o).isSome
        = (touchesOwner l o || (alistGet s.change o).isSome) := by
  induction l with
  | nil => intro s; simp [applyEntries, touchesOwner]
  | cons e rest ih =>
    intro s
    rw [show applyEntries sgn (e :: rest) s = applyEntries sgn rest (stepEntry sgn s e)
      from rfl, ih]
    have hstep : (alistGet (stepEntry sgn s e).change o).isSome
        = ((e.owner == o) || (alistGet s.change o).isSome) := by
      unfold stepEntry bumpNested
      simp only
      by_cases h1 : e.owner = o
      · rw [h1, alistGet_update_self]
        simp
      · rw [alistGet_update_ne _ _ _ _ (fun h2 => h1 h2.symm)]
        simp [h1]
    rw [hstep]
    simp only [touchesOwner, List.any_cons]
    cases h1 : (e.owner == o) <;> cases h2 : List.any rest (fun e => e.owner == o) <;>
      simp [touchesOwner, h1, h2]

theorem decGet_applyEntries (sgn : Int) (l : List TokenBalanceEntry) (m : Mint) :
    ∀ s : AccState,
      alistGet (applyEntries sgn l s).decimals m =
        match lastDecIn m l with
        | some d => some d
        | none => alistGet s.decimals m := by
  induction l with
  | nil => intro s; simp [applyEntries, lastDecIn]
  | cons e rest ih =>
    intro s
    rw [show applyEntries sgn (e :: rest) s = applyEntries sgn rest (stepEntry sgn s e)
      from rfl, ih]
    have hstep : alistGet (stepEntry sgn s e).decimals m =
        if e.mint = m then some e.decimals else alistGet s.decimals m := by
      unfold stepEntry
      simp only
      by_cases hm : e.mint = m
      · rw [hm, alistGet_update_self, if_pos rfl]
      · rw [alistGet_update_ne _ _ _ _ (fun h2 => hm h2.symm), if_neg hm]
    cases hld : lastDecIn m rest with
    | some d => simp [lastDecIn, hld]
    | none =>
      simp only [lastDecIn, hld, hstep]
      by_cases hm : e.mint = m <;> simp [hm]

theorem lastDecIn_append (m : Mint) (l1 l2 : List TokenBalanceEntry) :
    lastDecIn m (l1 ++ l2) =
      match lastDecIn m l2 with
      | some d => some d
      | none => lastDecIn m l1 := by
  induction l1 with
  | nil =>
    simp only [List.nil_append]
    cases lastDecIn m l2 <;> simp [lastDecIn]
  | cons e rest ih =>
    simp only [List.cons_append, lastDecIn]
    cases h2 : lastDecIn m l2 <;> cases h3 : lastDecIn m rest <;>
      simp [h2, h3] at ih ⊢ <;> simp [ih]

theorem decimals_accumulate (t : Transaction) (m : Mint) :
    alistGet (accumulate t).decimals m
      = lastDecIn m (t.postTokenBalances ++ t.preTokenBalances) := by
  unfold accumulate
  rw [decGet_applyEntries, decGet_applyEntries, lastDecIn_append]
  cases lastDecIn m t.preTokenBalances <;> cases lastDecIn m t.postTokenBalances <;>
    simp [alistGet]

theorem getNested_accumulate (t : Transaction) (o : Owner) (m : Mint) :
    getNested (accumulate t).change o m =
      if touchesOM (t.postTokenBalances ++ t.preTokenBalances) o m
      then some (netAmount t o m) else none := by
  unfold accumulate netAmount
  rw [getNested_applyEntries, getNested_applyEntries]
  have hinit : getNested (⟨[], []⟩ : AccState).change o m = none := by
    simp [getNested, alistGet]
  have happ : touchesOM (t.postTokenBalances ++ t.preTokenBalances) o m
      = (touchesOM t.postTokenBalances o m || touchesOM t.preTokenBalances o m) := by
    simp [touchesOM, List.any_append]
  by_cases hpost : touchesOM t.postTokenBalances o m = true <;>
    by_cases hpre : touchesOM t.preTokenBalances o m = true
  · rw [if_pos hpre, if_pos hpost, happ, hpost]
    simp only [Bool.true_or, if_pos rfl, hinit]
    simp only [Option.getD_none, Option.getD_some]
    congr 1
    ring
  · have hpre' : touchesOM t.preTokenBalances o m = false := by simpa using hpre
    rw [if_neg (by simp [hpre']), if_pos hpost, happ, hpost]
    simp only [Bool.true_or, if_pos rfl, hinit, sumRaw_eq_zero hpre']
    simp only [Option.getD_none]
    congr 1
    ring
  · have hpost' : touchesOM t.postTokenBalances o m = false := by simpa using hpost
    rw [if_pos hpre, if_neg (by simp [hpost']), happ, hpost', hinit]
    simp only [Bool.false_or, hpre, if_pos rfl, sumRaw_eq_zero hpost']
    simp only [Option.getD_none]
    congr 1
    ring
  · have hpost' : touchesOM t.postTokenBalances o m = false := by simpa using hpost
    have hpre' : touchesOM t.preTokenBalances o m = false := by simpa using hpre
    rw [if_neg (by simp [hpre']), if_neg (by simp [hpost']), happ, hpost', hpre', hinit]
    simp

theorem alistGet_map_transform {K V W : Type} [DecidableEq K] (g : K × V → W)
    (l : List (K × V)) (k : K) :
    alistGet (l.map (fun kv => (kv.1, g kv))) k
      = (alistGet l k).map (fun v => g (k, v)) := by
  induction l with
  | nil => simp [alistGet]
  | cons kv rest ih =>
    obtain ⟨a, b⟩ := kv
    by_cases hk : a = k
    · subst hk
      simp [alistGet]
    · simp [alistGet, hk, ih]

theorem alistGet_filter_map {K V W : Type} [DecidableEq K] (p : K × V → Bool)
    (g : K × V → W) (l : List (K × V)) (hnd : (l.map Prod.fst).Nodup) (k : K) :
    alistGet ((l.filter p).map (fun kv => (kv.1, g kv))) k =
      match alistGet l k with
      | some v => if p (k, v) then some (g (k, v)) else none
      | none => none := by
  induction l with
  | nil => simp [alistGet]
  | cons kv rest ih =>
    obtain ⟨a, b⟩ := kv
    simp only [List.map_cons, List.nodup_cons] at hnd
    by_cases hk : a = k
    · subst hk
      by_cases hp : p (a, b) = true
      · rw [List.filter_cons_of_pos hp]
        simp [alistGet, hp]
      · have hp' : p (a, b) = false := by simpa using hp
        rw [List.filter_cons_of_neg (by simp [hp'])]
        have hnone : alistGet ((rest.filter p).map (fun kv => (kv.1, g kv))) a = none := by
          rw [alistGet_eq_none_iff, keys_map_transform]
          intro hcontra
          exact hnd.1 ((List.Sublist.map Prod.fst (List.filter_sublist rest)).subset hcontra)
        rw [hnone]
        simp [alistGet, hp']
    · by_cases hp : p (a, b) = true
      · rw [List.filter_cons_of_pos hp]
        simp only [List.map_cons, alistGet, if_neg hk]
        rw [ih hnd.2]
      · have hp' : p (a, b) = false := by simpa using hp
        rw [List.filter_cons_of_neg (by simp [hp'])]
        rw [ih hnd.2]
        simp [alistGet, hk]

/-- The accumulator invariants, packaged for the whole accumulation pass. -/
theorem accumulate_invariant (t : Transaction) :
    ((accumulate t).change.map Prod.fst).Nodup ∧
      (∀ ov ∈ (accumulate t).change, (ov.2.map Prod.fst).Nodup) ∧
      (∀ ov ∈ (accumulate t).change, ov.2 ≠ []) := by
  have hbase : (([] : List (Owner × List (Mint × Int))).map Prod.fst).Nodup ∧
      (∀ ov ∈ ([] : List (Owner × List (Mint × Int))), (ov.2.map Prod.fst).Nodup) ∧
      (∀ ov ∈ ([] : List (Owner × List (Mint × Int))), ov.2 ≠ []) := by simp
  exact accState_invariant (-1) t.preTokenBalances _
    (accState_invariant 1 t.postTokenBalances ⟨[], []⟩ hbase)

/-- The owner-level filter of the comprehension is vacuous: the raw
accumulator of every touched owner is non-empty. -/
theorem construct_eq_map (t : Transaction) :
    construct_balance_changes t
      = (accumulate t).change.map (fun ov =>
          (ov.1, (ov.2.filter (fun my => decide (my.2 ≠ 0))).map
            (fun my => (my.1, scaleBy (accumulate t).decimals my.1 my.2)))) := by
  unfold construct_balance_changes
  rw [List.filter_eq_self.mpr]
  intro ov hov
  simpa using (accumulate_invariant t).2.2 ov hov

theorem scaleBy_eq_div (dec : List (Mint × Nat)) (m : Mint) (y : Int) :
    scaleBy dec m y = (y : ℚ) / 10 ^ ((alistGet dec m).getD 0) := by
  unfold scaleBy
  rw [Rat.divInt_eq_div]
  norm_num

/-- C8 (amended): for each owner and token, the extractor's value is
((sum of post amounts) − (sum of pre amounts)) / 10 ^ (last observed
decimal-places count), entries with zero accumulated integer are dropped, and
every owner appearing in the pre or post balances (the signer included) stays
in the result — possibly with an empty entry map — because the owner-level
filter tests the raw accumulator, which is non-empty for every touched
owner. -/
theorem claim8_extractor (t : Transaction) :
    (∀ o : Owner, (alistGet (construct_balance_changes t) o).isSome = true ↔
        touchesOwner (t.postTokenBalances ++ t.preTokenBalances) o = true) ∧
    (∀ o om, alistGet (construct_balance_changes t) o = some om →
      ∀ m, alistGet om m =
        if touchesOM (t.postTokenBalances ++ t.preTokenBalances) o m = true ∧
            netAmount t o m ≠ 0
        then some ((netAmount t o m : ℚ) / 10 ^ specDecimals t m)
        else none) := by
  obtain ⟨hnd, hinnd, hne⟩ := accumulate_invariant t
  have hmap := construct_eq_map t
  constructor
  · intro o
    have houter : (alistGet (accumulate t).change o).isSome
        = touchesOwner (t.postTokenBalances ++ t.preTokenBalances) o := by
      rw [show (accumulate t).change = (applyEntries (-1) t.preTokenBalances
        (applyEntries 1 t.postTokenBalances ⟨[], []⟩)).change from rfl]
      rw [outerGet_applyEntries, outerGet_applyEntries]
      simp [touchesOwner, List.any_append, alistGet, Bool.or_comm]
    rw [hmap, alistGet_map_transform]
    cases hg : alistGet (accumulate t).change o with
    | none =>
      rw [hg] at houter
      simp at houter
      simp [houter]
    | some inner0 =>
      rw [hg] at houter
      simp at houter
      simp [houter]
  · intro o om hget m
    rw [hmap, alistGet_map_transform] at hget
    cases hg : alistGet (accumulate t).change o with
    | none =>
      rw [hg] at hget
      simp at hget
    | some inner0 =>
      rw [hg] at hget
      simp only [Option.map_some'] at hget
      rw [← Option.some.inj hget]
      rw [alistGet_filter_map _ _ _ (hinnd (o, inner0) (mem_of_alistGet hg))]
      have hn : alistGet inner0 m = getNested (accumulate t).change o m := by
        simp [getNested, hg]
      rw [hn, getNested_accumulate]
      by_cases ht : touchesOM (t.postTokenBalances ++ t.preTokenBalances) o m = true
      · rw [if_pos ht]
        by_cases hz : netAmount t o m = 0
        · simp [hz, ht]
        · have hval : scaleBy (accumulate t).decimals m (netAmount t o m)
              = (netAmount t o m : ℚ) / 10 ^ specDecimals t m := by
            rw [scaleBy_eq_div, decimals_accumulate]
            rfl
          simp [hz, ht, hval]
      · have ht' : touchesOM (t.postTokenBalances ++ t.preTokenBalances) o m = false := by
          simpa using ht
        rw [if_neg (by simp [ht'])]
        simp [ht']

/-- C8 counterexample: in `allZeroTx` owner O's only entry nets to zero; the
claim says O is then dropped, but the extractor keeps O with an empty entry
map (the `if v` filter tests the raw accumulator, which still holds the
zero entry). -/
theorem claim8_counterexample :
    construct_balance_changes allZeroTx = [("O", [])] ∧
      construct_balance_changes allZeroTx ≠ [] := by
  with_unfolding_all decide

/-- Witness for C8 at `fracTx`: owner O nets 3 on mint M with one decimal
place, giving the delta 3/10. -/
theorem claim8_witness :
    alistGet [("M", Rat.divInt 3 10)] "M" =
      if touchesOM (fracTx.postTokenBalances ++ fracTx.preTokenBalances) "O" "M" = true ∧
          netAmount fracTx "O" "M" ≠ 0
      then some ((netAmount fracTx "O" "M" : ℚ) / 10 ^ specDecimals fracTx "M")
      else none :=
  (claim8_extractor fracTx).2 "O" [("M", Rat.divInt 3 10)] (by with_unfolding_all decide) "M"

/-! ### C5: the matcher's final slot assignment -/

theorem alistGet_recordLeg (acc : List (TransferKey × TransferSlot)) (o : Owner) (m : Mint)
    (v : ℚ) (k : TransferKey) :
    alistGet (recordLeg acc o m v) k =
      if k = (m, |v|) then
        some (if v < 0 then (some o, ((alistGet acc k).getD (none, none)).2)
              else (((alistGet acc k).getD (none, none)).1, some o))
      else alistGet acc k := by
  unfold recordLeg
  by_cases hk : k = (m, |v|)
  · rw [hk, alistGet_update_self, if_pos rfl]
  · rw [if_neg hk, alistGet_update_ne _ _ _ _ hk]

/-- The effect of one leg's two writes on an arbitrary key of the slot map:
slot 0 becomes the owner iff the leg gives exactly `k`, slot 1 becomes the
owner iff it receives exactly `k`; other keys are untouched. -/
theorem legWrites_get (o : Owner) (x y : Mint × ℚ) (hprod : x.2 * y.2 < 0)
    (acc : List (TransferKey × TransferSlot)) (k : TransferKey) :
    (alistGet (legWrites o [x, y] acc) k).getD (none, none) =
      (if givesAt [x, y] k then some o else ((alistGet acc k).getD (none, none)).1,
       if receivesAt [x, y] k then some o else ((alistGet acc k).getD (none, none)).2) := by
  have hfold : legWrites o [x, y] acc = recordLeg (recordLeg acc o x.1 x.2) o y.1 y.2 := rfl
  rw [hfold]
  rcases mul_neg_iff.mp hprod with ⟨hx, hy⟩ | ⟨hx, hy⟩
  · have hxn : ¬ x.2 < 0 := not_lt.mpr (le_of_lt hx)
    have hgiv : givesAt [x, y] k = true ↔ k = (y.1, |y.2|) := by
      simp only [givesAt, List.any_cons, List.any_nil, Bool.or_false, Bool.or_eq_true,
        Bool.and_eq_true, beq_iff_eq, decide_eq_true_eq, Prod.ext_iff]
      constructor
      · rintro (⟨⟨_, hc⟩, _⟩ | ⟨⟨h1, _⟩, h2⟩)
        · exact absurd hc hxn
        · exact ⟨h1.symm, h2.symm⟩
      · rintro ⟨h1, h2⟩
        exact Or.inr ⟨⟨h1.symm, hy⟩, h2.symm⟩
    have hrecv : receivesAt [x, y] k = true ↔ k = (x.1, |x.2|) := by
      simp only [receivesAt, List.any_cons, List.any_nil, Bool.or_false, Bool.or_eq_true,
        Bool.and_eq_true, beq_iff_eq, Bool.not_eq_true', decide_eq_false_iff_not,
        decide_eq_true_eq, Prod.ext_iff]
      constructor
      · rintro (⟨⟨h1, _⟩, h2⟩ | ⟨⟨_, hc⟩, _⟩)
        · exact ⟨h1.symm, h2.symm⟩
        · exact absurd hy hc
      · rintro ⟨h1, h2⟩
        exact Or.inl ⟨⟨h1.symm, hxn⟩, h2.symm⟩
    rw [alistGet_recordLeg]
    by_cases hk2 : k = (y.1, |y.2|)
    · rw [if_pos hk2, if_pos (hgiv.mpr hk2)]
      rw [alistGet_recordLeg]
      by_cases hk1 : k = (x.1, |x.2|)
      · rw [if_pos hk1, if_pos (hrecv.mpr hk1)]
        simp [hy, hxn]
      · rw [if_neg hk1, if_neg (fun hc => hk1 (hrecv.mp hc))]
        simp [hy]
    · rw [if_neg hk2, if_neg (fun hc => hk2 (hgiv.mp hc))]
      rw [alistGet_recordLeg]
      by_cases hk1 : k = (x.1, |x.2|)
      · rw [if_pos hk1, if_pos (hrecv.mpr hk1)]
        simp [hxn]
      · rw [if_neg hk1, if_neg (fun hc => hk1 (hrecv.mp hc))]
  · have hyn : ¬ y.2 < 0 := not_lt.mpr (le_of_lt hy)
    have hgiv : givesAt [x, y] k = true ↔ k = (x.1, |x.2|) := by
      simp only [givesAt, List.any_cons, List.any_nil, Bool.or_false, Bool.or_eq_true,
        Bool.and_eq_true, beq_iff_eq, decide_eq_true_eq, Prod.ext_iff]
      constructor
      · rintro (⟨⟨h1, _⟩, h2⟩ | ⟨⟨_, hc⟩, _⟩)
        · exact ⟨h1.symm, h2.symm⟩
        · exact absurd hc hyn
      · rintro ⟨h1, h2⟩
        exact Or.inl ⟨⟨h1.symm, hx⟩, h2.symm⟩
    have hrecv : receivesAt [x, y] k = true ↔ k = (y.1, |y.2|) := by
      simp only [receivesAt, List.any_cons, List.any_nil, Bool.or_false, Bool.or_eq_true,
        Bool.and_eq_true, beq_iff_eq, Bool.not_eq_true', decide_eq_false_iff_not,
        decide_eq_true_eq, Prod.ext_iff]
      constructor
      · rintro (⟨⟨_, hc⟩, _⟩ | ⟨⟨h1, _⟩, h2⟩)
        · exact absurd hx hc
        · exact ⟨h1.symm, h2.symm⟩
      · rintro ⟨h1, h2⟩
        exact Or.inr ⟨⟨h1.symm, hyn⟩, h2.symm⟩
    rw [alistGet_recordLeg]
    by_cases hk2 : k = (y.1, |y.2|)
    · rw [if_pos hk2, if_pos (hrecv.mpr hk2)]
      rw [alistGet_recordLeg]
      by_cases hk1 : k = (x.1, |x.2|)
      · rw [if_pos hk1, if_pos (hgiv.mpr hk1)]
        simp [hx, hyn]
      · rw [if_neg hk1, if_neg (fun hc => hk1 (hgiv.mp hc))]
        simp [hyn]
    · rw [if_neg hk2, if_neg (fun hc => hk2 (hrecv.mp hc))]
      rw [alistGet_recordLeg]
      by_cases hk1 : k = (x.1, |x.2|)
      · rw [if_pos hk1, if_pos (hgiv.mpr hk1)]
        simp [hx]
      · rw [if_neg hk1, if_neg (fun hc => hk1 (hgiv.mp hc))]

/-- The slot map after processing `delta` on top of `acc`: each slot holds
the last qualifying leg owner writing to it, falling back to `acc`. -/
theorem buildSlots_fold_spec (k : TransferKey) (delta : DeltaMap) :
    ∀ acc, (alistGet (delta.foldl slotStep acc) k).getD (none, none) =
      (match lastGiver k delta with
       | some o => some o
       | none => ((alistGet acc k).getD (none, none)).1,
       match lastReceiver k delta with
       | some o => some o
       | none => ((alistGet acc k).getD (none, none)).2) := by
  induction delta with
  | nil =>
    intro acc
    simp [lastGiver, lastReceiver]
  | cons ov rest ih =>
    intro acc
    simp only [List.foldl_cons]
    rw [ih]
    by_cases hleg : isSwapLeg ov.2 = true
    · have hlen : ov.2.length = 2 ∧ (ov.2.map Prod.snd).prod < 0 := by
        simpa [isSwapLeg] using hleg
      obtain ⟨x, y, hxy⟩ := List.length_eq_two.mp hlen.1
      have hprod : x.2 * y.2 < 0 := by
        have h2 := hlen.2
        rw [hxy] at h2
        simpa [mul_comm] using h2
      have hstep : slotStep acc ov = legWrites ov.1 [x, y] acc := by
        rw [← hxy]
        simp [slotStep, hleg, legWrites]
      rw [hstep, legWrites_get ov.1 x y hprod acc k]
      have hleg2 : isSwapLeg [x, y] = true := hxy ▸ hleg
      simp only [lastGiver, lastReceiver, hxy, hleg2, Bool.true_and]
      cases lastGiver k rest <;> cases lastReceiver k rest <;>
        by_cases hgv : givesAt [x, y] k = true <;>
          by_cases hrc : receivesAt [x, y] k = true <;>
            simp [hgv, hrc]
    · have hstep : slotStep acc ov = acc := by simp [slotStep, hleg]
      have hlegf : isSwapLeg ov.2 = false := by simpa using hleg
      rw [hstep]
      simp only [lastGiver, lastReceiver, hlegf, Bool.false_and, if_neg]
      cases lastGiver k rest <;> cases lastReceiver k rest <;> simp

theorem buildSlots_keys_nodup (delta : DeltaMap) :
    ((buildSlots delta).map Prod.fst).Nodup := by
  unfold buildSlots
  suffices h : ∀ acc : List (TransferKey × TransferSlot), (acc.map Prod.fst).Nodup →
      ((delta.foldl slotStep acc).map Prod.fst).Nodup from h [] (by simp)
  induction delta with
  | nil => intro acc h; exact h
  | cons ov rest ih =>
    intro acc h
    simp only [List.foldl_cons]
    apply ih
    unfold slotStep
    by_cases hleg : isSwapLeg ov.2 = true
    · rw [if_pos hleg]
      have haux : ∀ (inner : List (Mint × ℚ)) (acc2 : List (TransferKey × TransferSlot)),
          (acc2.map Prod.fst).Nodup → ((legWrites ov.1 inner acc2).map Prod.fst).Nodup := by
        intro inner
        induction inner with
        | nil => intro acc2 h2; exact h2
        | cons mv rest2 ih2 =>
          intro acc2 h2
          have hrec : ((recordLeg acc2 ov.1 mv.1 mv.2).map Prod.fst).Nodup := by
            unfold recordLeg
            exact nodup_keys_alistUpdate _ _ h2
          exact ih2 _ hrec
      exact haux ov.2 acc h
    · rw [if_neg hleg]
      exact h

/-- C5: after all legs are processed, slot 0 of every key holds the last leg
owner that gave exactly that token/amount and slot 1 the last leg owner that
received exactly it; one TransferEdge (source = slot 0 owner, destination =
slot 1 owner) is emitted for exactly the keys whose two slots are set to
non-empty owners. -/
theorem claim5_matcher_slots :
    (∀ (delta : DeltaMap) (k : TransferKey),
      (alistGet (buildSlots delta) k).getD (none, none)
        = (lastGiver k delta, lastReceiver k delta)) ∧
    (∀ delta : DeltaMap, pairsOf delta = (buildSlots delta).filterMap slotEdge) ∧
    (∀ (delta : DeltaMap) (k : TransferKey) (s : TransferSlot), (k, s) ∈ buildSlots delta →
      slotEdge (k, s) =
        match lastGiver k delta, lastReceiver k delta with
        | some a, some b => if a ≠ "" ∧ b ≠ "" then some (a, b) else none
        | _, _ => none) := by
  have hmain : ∀ (delta : DeltaMap) (k : TransferKey),
      (alistGet (buildSlots delta) k).getD (none, none)
        = (lastGiver k delta, lastReceiver k delta) := by
    intro delta k
    unfold buildSlots
    rw [buildSlots_fold_spec]
    cases hg : lastGiver k delta <;> cases hr : lastReceiver k delta <;> simp [alistGet]
  refine ⟨hmain, fun delta => rfl, ?_⟩
  intro delta k s hmem
  have hget := alistGet_of_mem_nodup (buildSlots_keys_nodup delta) hmem
  have hs := hmain delta k
  rw [hget] at hs
  simp only [Option.getD_some] at hs
  rw [show s = (lastGiver k delta, lastReceiver k delta) from hs]
  cases lastGiver k delta <;> cases lastReceiver k delta <;> simp [slotEdge]

/-- Witness for C5 at the concrete scenario: the key (tokenA, 30) ended with
slots (P, Q), and its emitted edge agrees with the last-giver/last-receiver
description. -/
theorem claim5_witness :
    slotEdge (("tokenA", 30), (some "P", some "Q")) =
      match lastGiver ("tokenA", 30) (pipeDelta scenarioTx),
            lastReceiver ("tokenA", 30) (pipeDelta scenarioTx) with
      | some a, some b => if a ≠ "" ∧ b ≠ "" then some (a, b) else none
      | _, _ => none :=
  claim5_matcher_slots.2.2 (pipeDelta scenarioTx) ("tokenA", 30) (some "P", some "Q")
    (by with_unfolding_all decide)

end Jito
